import Mathlib

/-!
Shallow embedding of the document-analysis pipeline of
`src/NLP/biobert_pubmed_extractor.py` (chunking, label canonicalization,
keyword matching, entity aggregation, per-record analysis), together with
theorems settling the specification claims about it.

Strings are modelled as `List Char`; Python's `str.lower`/`str.upper` are
modelled by `Char.toLower`/`Char.toUpper`, and `\d`, `\w` and the default
whitespace set of `str.strip` by their ASCII readings, which cover every
input the claims mention.
-/

namespace ODDB

/-- ASCII reading of the whitespace characters stripped by Python's
`str.strip()` with no arguments. -/
def pyIsSpace (c : Char) : Bool :=
  c == ' ' || c == '\t' || c == '\n' || c == '\x0d' || c == '\x0b' || c == '\x0c'

/-- Python `str.strip()`: remove leading and trailing whitespace. -/
def pyStrip (l : List Char) : List Char :=
  ((l.dropWhile pyIsSpace).reverse.dropWhile pyIsSpace).reverse

/-- Python `text.rfind(c, s, e)`: the greatest index `i` with
`s ≤ i < e` and `text[i] = c`, as an `Option` (`none` for Python's `-1`). -/
def pyRfind (text : List Char) (c : Char) (s e : Nat) : Option Nat :=
  (List.range' s (e - s)).foldl
    (fun acc i => if text[i]? = some c then some i else acc) none

/-- The cut position chosen by one iteration of the chunking loop of
`ner_document` (lines 205-209 of the source): `e = min(s + max_chars, len(text))`;
`cut = text.rfind(".", s, e)`; `if cut == -1 or cut <= s: cut = e`. -/
def chunkCut (text : List Char) (maxChars s : Nat) : Nat :=
  let e := min (s + maxChars) text.length
  match pyRfind text '.' s e with
  | some c => if c ≤ s then e else c
  | none => e

/-- The chunking loop of `ner_document`: `while s < len(text)` append
`text[s:cut]` and set `s = cut + 1`.  The loop runs at most `text.length`
times because `s` strictly increases on every iteration, so the `fuel`
argument (instantiated with `text.length + 1` in `pyChunks`) never runs out
on the source's own inputs. -/
def chunksFrom (text : List Char) (maxChars : Nat) : Nat → Nat → List (List Char)
  | 0, _ => []
  | fuel + 1, s =>
    if s < text.length then
      let cut := chunkCut text maxChars s
      (text.drop s).take (cut - s) :: chunksFrom text maxChars fuel (cut + 1)
    else []

/-- The chunk sequence produced by `ner_document` for a text (lines 202-211). -/
def pyChunks (text : List Char) (maxChars : Nat) : List (List Char) :=
  chunksFrom text maxChars (text.length + 1) 0

theorem chunksFrom_stop (text : List Char) (maxChars fuel s : Nat)
    (h : text.length ≤ s) : chunksFrom text maxChars fuel s = [] := by
  cases fuel with
  | zero => rfl
  | succ f => simp [chunksFrom, Nat.not_lt.mpr h]

theorem pyRfind_eq_some (text : List Char) (c : Char) (s e i : Nat)
    (h : pyRfind text c s e = some i) :
    s ≤ i ∧ i < e ∧ text[i]? = some c := by
  unfold pyRfind at h
  have aux : ∀ (l : List Nat) (acc : Option Nat),
      l.foldl (fun a j => if text[j]? = some c then some j else a) acc = some i →
      acc = some i ∨ (i ∈ l ∧ text[i]? = some c) := by
    intro l
    induction l with
    | nil => intro acc h; exact Or.inl h
    | cons j l ih =>
      intro acc h
      rcases ih _ h with h1 | h2
      · by_cases hj : text[j]? = some c
        · simp [hj] at h1
          exact Or.inr ⟨by simp [h1], h1 ▸ hj⟩
        · simp [hj] at h1
          exact Or.inl h1
      · exact Or.inr ⟨List.mem_cons_of_mem _ h2.1, h2.2⟩
  rcases aux _ _ h with h1 | h2
  · exact absurd h1 (by simp)
  · have hm := h2.1
    rw [List.mem_range'_1] at hm
    refine ⟨hm.1, ?_, h2.2⟩
    omega

theorem s_le_chunkCut (text : List Char) (maxChars s : Nat)
    (h : s < text.length) : s ≤ chunkCut text maxChars s := by
  unfold chunkCut
  cases hr : pyRfind text '.' s (min (s + maxChars) text.length) with
  | none => simp only [hr]; omega
  | some c =>
    simp only [hr]
    by_cases hc : c ≤ s
    · simp only [if_pos hc]; omega
    · have h2 := pyRfind_eq_some text '.' s _ c hr
      simp only [if_neg hc]; omega

/-- C1.  The chunking step of `ner_document` does NOT satisfy the claimed
coverage property: on the text `"abcdef"` with maximum chunk size 3 no
sentence cut is ever used (the text contains no terminator at all), so the
claim's reassembly is plain concatenation of the chunks; the code produces
`["abc", "ef"]`, silently dropping the character `'d'` at the hard-cut
position (the loop advances `s` to `cut + 1` even when no terminator was
consumed), so concatenation does not reproduce the text. -/
theorem chunker_hard_cut_drops_char :
    pyChunks "abcdef".toList 3 = ["abc".toList, "ef".toList]
    ∧ '.' ∉ "abcdef".toList
    ∧ "abc".toList ++ "ef".toList ≠ "abcdef".toList := by
  refine ⟨by decide, by decide, by decide⟩

/-- C6 counterexample.  The text `"ab.cd"` is strictly shorter than the
maximum chunk size 10, yet the chunker does not yield one chunk equal to
the whole text: it cuts at the interior sentence terminator and yields
`["ab", "cd"]`. -/
theorem short_text_single_chunk_cex :
    ("ab.cd".toList).length < 10
    ∧ pyChunks "ab.cd".toList 10 = ["ab".toList, "cd".toList]
    ∧ pyChunks "ab.cd".toList 10 ≠ ["ab.cd".toList] := by
  refine ⟨by decide, by decide, by decide⟩

/-- C6 amended.  For every nonempty text strictly shorter than the maximum
chunk size that contains no sentence terminator `'.'` at any position
strictly after the first character, the chunker yields exactly one chunk
equal to the whole input text.  (A terminator at position 0 is allowed: the
loop only cuts at a terminator found strictly after the current offset.) -/
theorem short_text_single_chunk (text : List Char) (maxChars : Nat)
    (hne : text ≠ []) (hlt : text.length < maxChars)
    (hdot : '.' ∉ text.drop 1) :
    pyChunks text maxChars = [text] := by
  have hcut : chunkCut text maxChars 0 = text.length := by
    unfold chunkCut
    have hmin : min (0 + maxChars) text.length = text.length := by omega
    cases hr : pyRfind text '.' 0 (min (0 + maxChars) text.length) with
    | none => rw [hmin] at hr; simp only [hmin, hr]
    | some i =>
      have h2 := pyRfind_eq_some text '.' 0 _ i hr
      have hi0 : i = 0 := by
        by_contra hne0
        have h1i : 1 ≤ i := by omega
        apply hdot
        have hdrop : (text.drop 1)[i - 1]? = some '.' := by
          rw [List.getElem?_drop]
          have h1 : 1 + (i - 1) = i := by omega
          rw [h1]
          exact h2.2.2
        exact List.getElem?_mem hdrop
      rw [hmin] at hr
      simp only [hmin, hr, hi0, if_pos (Nat.le_refl 0)]
  rcases text with _ | ⟨a, as⟩
  · exact absurd rfl hne
  · have hfuel : (a :: as).length + 1 = as.length + 1 + 1 := by simp
    simp only [pyChunks, hfuel, chunksFrom]
    rw [if_pos (by simp : 0 < (a :: as).length), hcut]
    rw [if_neg (by omega : ¬((a :: as).length + 1 < (a :: as).length))]
    simp

/-- C6 amended, witness at the text `".xy"` with maximum chunk size 5. -/
theorem short_text_single_chunk_witness :
    (".xy".toList ≠ [] ∧ (".xy".toList).length < 5 ∧ '.' ∉ ".xy".toList.drop 1)
    ∧ pyChunks ".xy".toList 5 = [".xy".toList] :=
  ⟨⟨by decide, by decide, by decide⟩,
    short_text_single_chunk ".xy".toList 5 (by decide) (by decide) (by decide)⟩

/-- The fixed mapping table `CANON_MAP` of the source (lines 133-145), in
its insertion order; keys are kept verbatim, including the underscores of
`"GENE_OR_GENE_PRODUCT"`. -/
def CANON_MAP : List (List Char × List Char) :=
  [("DISEASE".toList, "Disease".toList),
   ("DIAGNOSIS".toList, "Disease".toList),
   ("PROBLEM".toList, "Disease".toList),
   ("CONDITION".toList, "Disease".toList),
   ("GENE".toList, "Gene".toList),
   ("GENE_OR_GENE_PRODUCT".toList, "Gene".toList),
   ("DNA".toList, "Gene".toList),
   ("RNA".toList, "Gene".toList),
   ("CHEMICAL".toList, "Drug".toList),
   ("DRUG".toList, "Drug".toList),
   ("CHEMICALSUBSTANCE".toList, "Drug".toList)]

/-- The normalization step of `canonical_label`:
`label.upper().replace("-", "").replace("_", "")`. -/
def normLabel (label : List Char) : List Char :=
  (label.map Char.toUpper).filter (fun c => !(c == '-') && !(c == '_'))

/-- The lookup loop of `canonical_label`: the first entry `(k, v)` with
`lab == k or k in lab` wins; no match yields `"Other"`. -/
def canonMatch (lab : List Char) : List (List Char × List Char) → List Char
  | [] => "Other".toList
  | (k, v) :: rest => if lab = k ∨ k <:+: lab then v else canonMatch lab rest

/-- `canonical_label` of the source (lines 147-155). -/
def canonical_label (label : List Char) : List Char :=
  canonMatch (normLabel label) CANON_MAP

theorem canonMatch_no_match (lab : List Char) (m : List (List Char × List Char))
    (h : ∀ kv ∈ m, ¬(lab = kv.1 ∨ kv.1 <:+: lab)) :
    canonMatch lab m = "Other".toList := by
  induction m with
  | nil => rfl
  | cons kv rest ih =>
    obtain ⟨k, v⟩ := kv
    rw [canonMatch, if_neg (h (k, v) (List.mem_cons_self _ _))]
    exact ih fun kv hkv => h kv (List.mem_cons_of_mem _ hkv)

theorem canonMatch_match (lab : List Char) (m : List (List Char × List Char))
    (kv : List Char × List Char) (hm : kv ∈ m) (h : lab = kv.1 ∨ kv.1 <:+: lab) :
    ∃ kw ∈ m, (lab = kw.1 ∨ kw.1 <:+: lab) ∧ canonMatch lab m = kw.2 := by
  induction m with
  | nil => exact absurd hm (List.not_mem_nil kv)
  | cons hd rest ih =>
    obtain ⟨k, v⟩ := hd
    by_cases hh : lab = k ∨ k <:+: lab
    · exact ⟨(k, v), List.mem_cons_self _ _, hh, by rw [canonMatch, if_pos hh]⟩
    · have hm2 : kv ∈ rest := by
        rcases List.mem_cons.mp hm with heq | htl
        · rw [heq] at h; exact absurd h hh
        · exact htl
      obtain ⟨kw, hkw, hmatch, heq⟩ := ih hm2
      exact ⟨kw, List.mem_cons_of_mem _ hkw, hmatch,
        by rw [canonMatch, if_neg hh]; exact heq⟩

theorem canonMatch_range (lab : List Char) (m : List (List Char × List Char)) :
    canonMatch lab m = "Other".toList ∨ ∃ kv ∈ m, canonMatch lab m = kv.2 := by
  induction m with
  | nil => exact Or.inl rfl
  | cons hd rest ih =>
    obtain ⟨k, v⟩ := hd
    by_cases hh : lab = k ∨ k <:+: lab
    · exact Or.inr ⟨(k, v), List.mem_cons_self _ _, by rw [canonMatch, if_pos hh]⟩
    · rw [canonMatch, if_neg hh]
      rcases ih with h1 | ⟨kv, hkv, heq⟩
      · exact Or.inl h1
      · exact Or.inr ⟨kv, List.mem_cons_of_mem _ hkv, heq⟩

theorem canonical_label_range (label : List Char) :
    canonical_label label = "Disease".toList ∨ canonical_label label = "Gene".toList
    ∨ canonical_label label = "Drug".toList ∨ canonical_label label = "Other".toList := by
  rcases canonMatch_range (normLabel label) CANON_MAP with h | ⟨kv, hkv, heq⟩
  · exact Or.inr (Or.inr (Or.inr h))
  · have h1 : canonical_label label = kv.2 := heq
    rw [h1]
    have hkv2 : kv.2 = "Disease".toList ∨ kv.2 = "Gene".toList ∨ kv.2 = "Drug".toList := by
      simp only [CANON_MAP, List.mem_cons, List.not_mem_nil, or_false] at hkv
      rcases hkv with h|h|h|h|h|h|h|h|h|h|h <;> simp [h]
    rcases hkv2 with h|h|h
    · exact Or.inl h
    · exact Or.inr (Or.inl h)
    · exact Or.inr (Or.inr (Or.inl h))

/-- C4.  `canonical_label` is total with range {Disease, Gene, Drug, Other}:
a label matching no table key (neither exactly nor as a substring of the
normalized label) yields `"Other"`, a label matching some key yields the
class of a matching key, and the boundary examples of the claim hold. -/
theorem canonical_label_total_match :
    (∀ label, canonical_label label = "Disease".toList
      ∨ canonical_label label = "Gene".toList
      ∨ canonical_label label = "Drug".toList
      ∨ canonical_label label = "Other".toList)
    ∧ (∀ label, (∀ kv ∈ CANON_MAP, ¬(normLabel label = kv.1 ∨ kv.1 <:+: normLabel label)) →
        canonical_label label = "Other".toList)
    ∧ (∀ label kv, kv ∈ CANON_MAP → (normLabel label = kv.1 ∨ kv.1 <:+: normLabel label) →
        ∃ kw ∈ CANON_MAP, (normLabel label = kw.1 ∨ kw.1 <:+: normLabel label)
          ∧ canonical_label label = kw.2)
    ∧ canonical_label "B-DISEASE".toList = "Disease".toList
    ∧ canonical_label "Disease".toList = "Disease".toList
    ∧ canonical_label "DISEASE".toList = "Disease".toList
    ∧ canonical_label "DISEASEORSYNDROME".toList = "Disease".toList
    ∧ canonical_label "".toList = "Other".toList
    ∧ canonical_label "FOO".toList = "Other".toList := by
  refine ⟨canonical_label_range, ?_, ?_, by decide, by decide, by decide, by decide,
    by decide, by decide⟩
  · intro label h
    exact canonMatch_no_match _ _ h
  · intro label kv hkv h
    exact canonMatch_match _ _ kv hkv h

/-- C4, witness: the unmatched label `"XYZQ"` maps to `"Other"`, via the
no-match branch of the theorem. -/
theorem canonical_label_total_match_witness :
    canonical_label "XYZQ".toList = "Other".toList :=
  canonical_label_total_match.2.1 "XYZQ".toList (by decide)

/-- C10.  `canonical_label` is idempotent, and each of its four possible
outputs is a fixed point of it. -/
theorem canonical_label_idempotent :
    (∀ s, canonical_label (canonical_label s) = canonical_label s)
    ∧ canonical_label "Disease".toList = "Disease".toList
    ∧ canonical_label "Gene".toList = "Gene".toList
    ∧ canonical_label "Drug".toList = "Drug".toList
    ∧ canonical_label "Other".toList = "Other".toList := by
  refine ⟨?_, by decide, by decide, by decide, by decide⟩
  intro s
  rcases canonical_label_range s with h | h | h | h
  all_goals rw [h]; decide

/-- A recognized span returned by the recognizer for one chunk: surface
text (Python `r["word"]`) and raw type label (`r["entity_group"]` /
`r["entity"]`). -/
structure Span where
  word : List Char
  label : List Char
deriving DecidableEq

/-- The three per-class entity buckets of `ner_document`; only these three
classes are ever populated, and `setdefault` guarantees all three keys. -/
structure Buckets where
  disease : List (List Char)
  gene : List (List Char)
  drug : List (List Char)
deriving DecidableEq

def emptyBuckets : Buckets := ⟨[], [], []⟩

/-- The per-span step of the aggregation loop (lines 218-223): strip the
surface text, canonicalize the label, and append to the class bucket when
the class is one of the three and the stripped word is nonempty. -/
def addSpan (b : Buckets) (r : Span) : Buckets :=
  let word := pyStrip r.word
  let group := canonical_label r.label
  if word = [] then b
  else if group = "Disease".toList then { b with disease := b.disease ++ [word] }
  else if group = "Gene".toList then { b with gene := b.gene ++ [word] }
  else if group = "Drug".toList then { b with drug := b.drug ++ [word] }
  else b

/-- One chunk of the aggregation loop (lines 214-223): whitespace-only
chunks are skipped without invoking the recognizer; otherwise the
recognizer runs and may fail, and every returned span is folded in. -/
def processChunkE {ε : Type} (pipe : List Char → Except ε (List Span))
    (b : Buckets) (ch : List Char) : Except ε Buckets :=
  if pyStrip ch = [] then Except.ok b
  else (pipe ch).map (fun outs => outs.foldl addSpan b)

/-- The dedup loop of `ner_document` (lines 226-235) with its `seen` set of
lowercased strings, modelled as a list queried by membership. -/
def dedupGo (seen : List (List Char)) : List (List Char) → List (List Char)
  | [] => []
  | w :: ws =>
    if w.map Char.toLower ∈ seen then dedupGo seen ws
    else w :: dedupGo (w.map Char.toLower :: seen) ws

/-- Deduplicate a bucket, keeping the first occurrence of each
case-insensitive surface string with its original casing. -/
def dedupCI (l : List (List Char)) : List (List Char) := dedupGo [] l

/-- `ner_document` (lines 194-240), with the recognizer modelled as a
capability that may fail (`Except`); an uncaught Python exception from
`pipe(ch)` corresponds to the `Except.error` short-circuit of `foldlM`. -/
def nerDocumentE {ε : Type} (pipe : List Char → Except ε (List Span))
    (text : List Char) (maxChars : Nat) : Except ε Buckets :=
  if text = [] then Except.ok emptyBuckets
  else ((pyChunks text maxChars).foldlM (processChunkE pipe) emptyBuckets).map
    (fun b => ⟨dedupCI b.disease, dedupCI b.gene, dedupCI b.drug⟩)

theorem foldlM_chunks_error {ε : Type} (pipe : List Char → Except ε (List Span))
    (chunks : List (List Char)) (b : Buckets)
    (h : ∃ ch ∈ chunks, pyStrip ch ≠ [] ∧ ∃ er, pipe ch = Except.error er) :
    ∃ e, chunks.foldlM (processChunkE pipe) b = Except.error e := by
  induction chunks generalizing b with
  | nil => obtain ⟨ch, hm, _⟩ := h; exact absurd hm (List.not_mem_nil ch)
  | cons c cs ih =>
    rw [List.foldlM_cons]
    by_cases hsk : pyStrip c = []
    · rw [processChunkE, if_pos hsk]
      have htl : ∃ ch ∈ cs, pyStrip ch ≠ [] ∧ ∃ er, pipe ch = Except.error er := by
        obtain ⟨ch, hm, hs, he⟩ := h
        rcases List.mem_cons.mp hm with rfl | hm2
        · exact absurd hsk hs
        · exact ⟨ch, hm2, hs, he⟩
      obtain ⟨e, he⟩ := ih b htl
      exact ⟨e, by rw [show ((Except.ok b : Except ε Buckets) >>= fun b2 =>
        cs.foldlM (processChunkE pipe) b2) = cs.foldlM (processChunkE pipe) b from rfl, he]⟩
    · cases hp : pipe c with
      | error er =>
        refine ⟨er, ?_⟩
        rw [processChunkE, if_neg hsk, hp]
        rfl
      | ok outs =>
        have htl : ∃ ch ∈ cs, pyStrip ch ≠ [] ∧ ∃ er, pipe ch = Except.error er := by
          obtain ⟨ch, hm, hs, er, he⟩ := h
          rcases List.mem_cons.mp hm with rfl | hm2
          · rw [hp] at he; exact absurd he (by simp)
          · exact ⟨ch, hm2, hs, er, he⟩
        obtain ⟨e, he⟩ := ih (outs.foldl addSpan b) htl
        refine ⟨e, ?_⟩
        rw [processChunkE, if_neg hsk, hp]
        rw [show ((Except.ok outs : Except ε (List Span)).map
          (fun outs => outs.foldl addSpan b) >>= fun b2 =>
          cs.foldlM (processChunkE pipe) b2) =
          cs.foldlM (processChunkE pipe) (outs.foldl addSpan b) from rfl, he]

/-- C2.  All-or-nothing aggregation: if the recognizer fails on any chunk
that `ner_document` actually submits to it (a chunk with nonempty stripped
text), the whole `ner_document` call fails with an error — no partial
buckets from earlier chunks are returned. -/
theorem ner_document_error_propagation {ε : Type}
    (pipe : List Char → Except ε (List Span)) (text : List Char) (maxChars : Nat)
    (h : ∃ ch ∈ pyChunks text maxChars, pyStrip ch ≠ [] ∧ ∃ er, pipe ch = Except.error er) :
    ∃ e, nerDocumentE pipe text maxChars = Except.error e := by
  have hne : text ≠ [] := by
    rintro rfl
    obtain ⟨ch, hm, _⟩ := h
    have h0 : pyChunks ([] : List Char) maxChars = [] := rfl
    rw [h0] at hm
    exact absurd hm (List.not_mem_nil ch)
  obtain ⟨e, he⟩ := foldlM_chunks_error pipe (pyChunks text maxChars) emptyBuckets h
  refine ⟨e, ?_⟩
  rw [nerDocumentE, if_neg hne, he]
  rfl

/-- A recognizer stub that fails exactly on the chunk `"cd"`. -/
def pipeFailsOnCd : List Char → Except (List Char) (List Span) :=
  fun ch => if ch = "cd".toList then Except.error "boom".toList else Except.ok []

/-- C2, witness: the text `"ab.cd.ef"` with maximum chunk size 4 is split
into the three chunks `"ab"`, `"cd"`, `"ef"`; a recognizer failing on the
second chunk makes the whole `ner_document` call fail. -/
theorem ner_document_error_propagation_witness :
    ∃ e, nerDocumentE pipeFailsOnCd "ab.cd.ef".toList 4 = Except.error e :=
  ner_document_error_propagation pipeFailsOnCd "ab.cd.ef".toList 4
    ⟨"cd".toList, by decide, by decide, "boom".toList, by rfl⟩

/-- The chunks on which `ner_document` actually invokes the recognizer:
those whose stripped text is nonempty (the loop `continue`s on the rest). -/
def invokedChunks (text : List Char) (maxChars : Nat) : List (List Char) :=
  (pyChunks text maxChars).filter (fun ch => !(pyStrip ch == []))

theorem chunksFrom_chars_mem (text : List Char) (maxChars : Nat) :
    ∀ fuel s ch, ch ∈ chunksFrom text maxChars fuel s → ∀ c ∈ ch, c ∈ text := by
  intro fuel
  induction fuel with
  | zero => intro s ch h; exact absurd h (List.not_mem_nil ch)
  | succ f ih =>
    intro s ch h c hc
    rw [chunksFrom] at h
    by_cases hs : s < text.length
    · rw [if_pos hs] at h
      rcases List.mem_cons.mp h with rfl | htl
      · exact List.drop_subset s text (List.take_subset _ _ hc)
      · exact ih _ ch htl c hc
    · rw [if_neg hs] at h
      exact absurd h (List.not_mem_nil ch)

theorem pyStrip_of_all_space (l : List Char) (h : ∀ c ∈ l, pyIsSpace c = true) :
    pyStrip l = [] := by
  have h1 : l.dropWhile pyIsSpace = [] := List.dropWhile_eq_nil_iff.mpr h
  rw [pyStrip, h1]
  rfl

theorem foldlM_chunks_skip {ε : Type} (pipe : List Char → Except ε (List Span))
    (chunks : List (List Char)) (b : Buckets)
    (h : ∀ ch ∈ chunks, pyStrip ch = []) :
    chunks.foldlM (processChunkE pipe) b = Except.ok b := by
  induction chunks generalizing b with
  | nil => rfl
  | cons c cs ih =>
    rw [List.foldlM_cons, processChunkE, if_pos (h c (List.mem_cons_self _ _))]
    rw [show ((Except.ok b : Except ε Buckets) >>= fun b2 =>
      cs.foldlM (processChunkE pipe) b2) = cs.foldlM (processChunkE pipe) b from rfl]
    exact ih b fun ch hch => h ch (List.mem_cons_of_mem _ hch)

/-- C8.  For every recognizer capability and every input text that is empty
or consists only of whitespace, `ner_document` returns exactly the three
empty buckets and never invokes the recognizer (no chunk passes the
nonempty-after-strip guard). -/
theorem ner_document_whitespace_empty {ε : Type}
    (pipe : List Char → Except ε (List Span)) (text : List Char) (maxChars : Nat)
    (h : ∀ c ∈ text, pyIsSpace c = true) :
    nerDocumentE pipe text maxChars = Except.ok emptyBuckets
    ∧ invokedChunks text maxChars = [] := by
  have hstrip : ∀ ch ∈ pyChunks text maxChars, pyStrip ch = [] := by
    intro ch hch
    exact pyStrip_of_all_space ch fun c hc =>
      h c (chunksFrom_chars_mem text maxChars _ _ ch hch c hc)
  constructor
  · by_cases hne : text = []
    · rw [hne, nerDocumentE, if_pos rfl]
    · rw [nerDocumentE, if_neg hne,
        foldlM_chunks_skip pipe (pyChunks text maxChars) emptyBuckets hstrip]
      rfl
  · rw [invokedChunks, List.filter_eq_nil_iff]
    intro ch hch
    rw [hstrip ch hch]
    decide

/-- C8, witness at the whitespace-only text `"  "` (two spaces) with a
recognizer stub and maximum chunk size 5. -/
theorem ner_document_whitespace_empty_witness :
    nerDocumentE (fun _ => (Except.ok [] : Except (List Char) (List Span)))
      "  ".toList 5 = Except.ok emptyBuckets
    ∧ invokedChunks "  ".toList 5 = [] :=
  ner_document_whitespace_empty (fun _ => Except.ok []) "  ".toList 5 (by decide)

theorem dedupGo_congr (l : List (List Char)) :
    ∀ s1 s2, (∀ a, a ∈ s1 ↔ a ∈ s2) → dedupGo s1 l = dedupGo s2 l := by
  induction l with
  | nil => intro s1 s2 _; rfl
  | cons w ws ih =>
    intro s1 s2 hs
    rw [dedupGo, dedupGo]
    by_cases hw : w.map Char.toLower ∈ s1
    · rw [if_pos hw, if_pos ((hs _).mp hw)]
      exact ih s1 s2 hs
    · rw [if_neg hw, if_neg (fun hc => hw ((hs _).mpr hc))]
      refine congrArg _ (ih _ _ fun a => ?_)
      simp only [List.mem_cons]
      exact or_congr Iff.rfl (hs a)

theorem dedupGo_cons_seen (l : List (List Char)) :
    ∀ seen x, dedupGo (x :: seen) l
      = dedupGo seen (l.filter (fun v => !(v.map Char.toLower == x))) := by
  induction l with
  | nil => intro seen x; rfl
  | cons v vs ih =>
    intro seen x
    by_cases hvx : v.map Char.toLower = x
    · rw [dedupGo, if_pos (by rw [hvx]; exact List.mem_cons_self _ _)]
      rw [List.filter_cons, show (!(v.map Char.toLower == x)) = false by simp [hvx]]
      simp only [Bool.false_eq_true, if_false]
      exact ih seen x
    · rw [List.filter_cons, show (!(v.map Char.toLower == x)) = true by simp [hvx]]
      simp only [if_true]
      by_cases hv : v.map Char.toLower ∈ seen
      · rw [dedupGo, if_pos (List.mem_cons_of_mem _ hv), dedupGo, if_pos hv]
        exact ih seen x
      · rw [dedupGo, if_neg (by
          intro hc
          rcases List.mem_cons.mp hc with h1 | h1
          · exact hvx h1
          · exact hv h1)]
        rw [dedupGo, if_neg hv]
        refine congrArg _ ?_
        rw [dedupGo_congr vs (v.map Char.toLower :: x :: seen) (x :: v.map Char.toLower :: seen)
          (by intro a; simp only [List.mem_cons]; tauto)]
        exact ih (v.map Char.toLower :: seen) x

/-- A recognizer stub that returns the three Disease spans `"Glaucoma"`,
`"glaucoma"`, `"Uveitis"`, in that order, for any chunk. -/
def pipeGlaucoma : List Char → Except (List Char) (List Span) :=
  fun _ => Except.ok
    [⟨"Glaucoma".toList, "Disease".toList⟩,
     ⟨"glaucoma".toList, "Disease".toList⟩,
     ⟨"Uveitis".toList, "Disease".toList⟩]

/-- C3.  The deduplication keeps a surface string only at its first
occurrence under case-insensitive comparison and retains that first
occurrence's casing: the head of an accumulation list is kept verbatim and
every later case-insensitive duplicate of it is dropped, recursively.  In
particular, recognized spans `["Glaucoma", "glaucoma", "Uveitis"]` (all of
class Disease) yield the Disease bucket `["Glaucoma", "Uveitis"]`. -/
theorem dedup_first_occurrence_case_insensitive :
    (∀ (w : List Char) (ws : List (List Char)), dedupCI (w :: ws)
      = w :: dedupCI (ws.filter (fun v => !(v.map Char.toLower == w.map Char.toLower))))
    ∧ nerDocumentE pipeGlaucoma "eye".toList 10
      = Except.ok ⟨["Glaucoma".toList, "Uveitis".toList], [], []⟩ := by
  constructor
  · intro w ws
    rw [dedupCI, dedupGo, if_neg (List.not_mem_nil _)]
    rw [dedupGo_cons_seen ws [] (w.map Char.toLower)]
    rfl
  · rfl

/-- ASCII reading of the regex word characters `\w` used by the
word-boundary assertions `\b` of the keyword patterns. -/
def isWordChar (c : Char) : Bool := c.isAlphanum || c == '_'

/-- One pattern atom matches one character; an atom is the set of accepted
characters (a singleton for a literal, several for a character class such
as `[sz]` or `[- ]`). -/
def atomsMatch : List (List Char) → List Char → Bool
  | [], _ => true
  | _ :: _, [] => false
  | a :: as, c :: cs => a.contains c && atomsMatch as cs

/-- The two `\b` assertions wrapping every keyword pattern: since every
pattern starts and ends with a word character, they require the characters
just before and just after the match (when they exist) to be non-word. -/
def boundaryOk (text : List Char) (i len : Nat) : Bool :=
  (i == 0 || !isWordChar (text.getD (i - 1) ' '))
    && !isWordChar (text.getD (i + len) ' ')

/-- Whether a pattern matches at position `i` of the text. -/
def matchAt (text : List Char) (i : Nat) (p : List (List Char)) : Bool :=
  atomsMatch p (text.drop i) && boundaryOk text i p.length

/-- The left-to-right, non-overlapping scan of `re.finditer` for one
pattern, returning the matched substrings in order.  The scan advances by
at least one position per step, so the fuel `text.length + 1` used by
`pyFinditer` never runs out. -/
def scanFrom (text : List Char) (p : List (List Char)) : Nat → Nat → List (List Char)
  | 0, _ => []
  | fuel + 1, i =>
    if i < text.length then
      if matchAt text i p then
        (text.drop i).take p.length :: scanFrom text p fuel (i + max p.length 1)
      else scanFrom text p fuel (i + 1)
    else []

/-- All matches of one pattern in a text, in scan order. -/
def pyFinditer (text : List Char) (p : List (List Char)) : List (List Char) :=
  scanFrom text p (text.length + 1) 0

/-- Adding a match to the `found` set of `find_keywords`, modelled as an
insertion-ordered list without duplicates. -/
def addNew (acc : List (List Char)) (m : List Char) : List (List Char) :=
  if m ∈ acc then acc else acc ++ [m]

/-- Lexicographic comparison of strings by code point, the order used by
Python's `sorted`. -/
def lexLe : List Char → List Char → Bool
  | [], _ => true
  | _ :: _, [] => false
  | a :: as, b :: bs => if a < b then true else if b < a then false else lexLe as bs

/-- `find_keywords` of the source (lines 179-188): lower the text, collect
the matches of every pattern into a set, and return them sorted. -/
def find_keywords (text : List Char) (patterns : List (List (List Char))) :
    List (List Char) :=
  let low := text.map Char.toLower
  let found := patterns.foldl (fun acc p => (pyFinditer low p).foldl addNew acc) []
  List.insertionSort (fun a b => lexLe a b = true) found

/-- Encode a literal phrase as a pattern of singleton atoms. -/
def lit (s : String) : List (List Char) := s.toList.map (fun c => [c])

/-- `STUDY_TYPE_PATTERNS` of the source (lines 158-170), with character
classes spelled out; literals are lowercased, faithful to the source's
combination of `text.lower()` and `re.IGNORECASE`. -/
def STUDY_TYPE_PATTERNS : List (List (List Char)) :=
  [lit "randomi" ++ [['s', 'z']] ++ lit "ed controlled trial",
   lit "clinical trial",
   lit "meta-analysis",
   lit "systematic review",
   lit "cohort study",
   lit "case" ++ [['-', ' ']] ++ lit "control study",
   lit "cross" ++ [['-', ' ']] ++ lit "sectional study",
   lit "prospective study",
   lit "retrospective study",
   lit "case series",
   lit "case report"]

/-- `TRIAL_PHASE_PATTERNS` of the source (lines 172-177). -/
def TRIAL_PHASE_PATTERNS : List (List (List Char)) :=
  [lit "phase i", lit "phase ii", lit "phase iii", lit "phase iv"]

theorem lexLe_total : ∀ a b : List Char, lexLe a b = true ∨ lexLe b a = true := by
  intro a
  induction a with
  | nil => intro b; exact Or.inl rfl
  | cons x xs ih =>
    intro b
    cases b with
    | nil => exact Or.inr rfl
    | cons y ys =>
      rcases lt_trichotomy x y with hxy | rfl | hxy
      · exact Or.inl (by rw [lexLe, if_pos hxy])
      · rcases ih ys with h | h
        · exact Or.inl (by rw [lexLe, if_neg (lt_irrefl x), if_neg (lt_irrefl x)]; exact h)
        · exact Or.inr (by rw [lexLe, if_neg (lt_irrefl x), if_neg (lt_irrefl x)]; exact h)
      · exact Or.inr (by rw [lexLe, if_pos hxy])

theorem lexLe_trans (a : List Char) :
    ∀ b c, lexLe a b = true → lexLe b c = true → lexLe a c = true := by
  induction a with
  | nil => intro b c _ _; rfl
  | cons x xs ih =>
    intro b c h1 h2
    cases b with
    | nil => simp [lexLe] at h1
    | cons y ys =>
      cases c with
      | nil => simp [lexLe] at h2
      | cons z zs =>
        rw [lexLe] at h1 h2 ⊢
        rcases lt_trichotomy x y with hxy | rfl | hxy
        · rcases lt_trichotomy y z with hyz | rfl | hyz
          · rw [if_pos (lt_trans hxy hyz)]
          · rw [if_pos hxy]
          · rw [if_neg (asymm hyz), if_pos hyz] at h2
            exact absurd h2 (by simp)
        · rcases lt_trichotomy x z with hxz | rfl | hxz
          · rw [if_pos hxz]
          · rw [if_neg (lt_irrefl x), if_neg (lt_irrefl x)] at h1 h2 ⊢
            exact ih ys zs h1 h2
          · rw [if_neg (asymm hxz), if_pos hxz] at h2
            exact absurd h2 (by simp)
        · rw [if_neg (asymm hxy), if_pos hxy] at h1
          exact absurd h1 (by simp)

instance : IsTotal (List Char) (fun a b => lexLe a b = true) := ⟨lexLe_total⟩

instance : IsTrans (List Char) (fun a b => lexLe a b = true) := ⟨lexLe_trans⟩

theorem mem_addNew (acc : List (List Char)) (m w : List Char) :
    w ∈ addNew acc m ↔ w ∈ acc ∨ w = m := by
  rw [addNew]
  by_cases h : m ∈ acc
  · rw [if_pos h]
    constructor
    · exact Or.inl
    · rintro (h1 | rfl)
      · exact h1
      · exact h
  · rw [if_neg h]
    simp

theorem nodup_addNew (acc : List (List Char)) (m : List Char) (h : acc.Nodup) :
    (addNew acc m).Nodup := by
  rw [addNew]
  by_cases hm : m ∈ acc
  · rw [if_pos hm]; exact h
  · rw [if_neg hm]
    exact List.nodup_append.mpr ⟨h, List.nodup_singleton m,
      fun a ha hb => hm (by rwa [List.mem_singleton.mp hb] at ha)⟩

theorem mem_foldl_addNew (ms : List (List Char)) :
    ∀ acc w, w ∈ ms.foldl addNew acc ↔ w ∈ acc ∨ w ∈ ms := by
  induction ms with
  | nil => intro acc w; simp
  | cons m ms ih =>
    intro acc w
    rw [List.foldl_cons, ih, mem_addNew]
    simp only [List.mem_cons]
    tauto

theorem nodup_foldl_addNew (ms : List (List Char)) :
    ∀ acc, acc.Nodup → (ms.foldl addNew acc).Nodup := by
  induction ms with
  | nil => intro acc h; exact h
  | cons m ms ih => intro acc h; exact ih _ (nodup_addNew acc m h)

theorem mem_foldl_finditer (low : List Char) (pats : List (List (List Char))) :
    ∀ acc w, w ∈ pats.foldl (fun acc p => (pyFinditer low p).foldl addNew acc) acc
      ↔ w ∈ acc ∨ ∃ p ∈ pats, w ∈ pyFinditer low p := by
  induction pats with
  | nil => intro acc w; simp
  | cons p ps ih =>
    intro acc w
    rw [List.foldl_cons, ih, mem_foldl_addNew]
    simp only [List.mem_cons]
    constructor
    · rintro ((h | h) | ⟨q, hq, hw⟩)
      · exact Or.inl h
      · exact Or.inr ⟨p, Or.inl rfl, h⟩
      · exact Or.inr ⟨q, Or.inr hq, hw⟩
    · rintro (h | ⟨q, rfl | hq, hw⟩)
      · exact Or.inl (Or.inl h)
      · exact Or.inl (Or.inr hw)
      · exact Or.inr ⟨q, hq, hw⟩

theorem nodup_foldl_finditer (low : List Char) (pats : List (List (List Char))) :
    ∀ acc, acc.Nodup →
      (pats.foldl (fun acc p => (pyFinditer low p).foldl addNew acc) acc).Nodup := by
  induction pats with
  | nil => intro acc h; exact h
  | cons p ps ih => intro acc h; exact ih _ (nodup_foldl_addNew _ acc h)

/-- The example text of the claim, with two case-varying occurrences of the
phrase "randomized controlled trial". -/
def rctText : List Char :=
  "This Randomized Controlled Trial... was a randomized controlled trial".toList

/-- C5.  `find_keywords` returns the lexicographically sorted list of
distinct matched phrases: the output is sorted and duplicate-free, a phrase
is in the output exactly when some pattern matches it somewhere in the
lowercased text, and the example text with two case-varying occurrences of
"randomized controlled trial" yields exactly that single study-type
phrase. -/
theorem find_keywords_sorted_dedup_case_insensitive :
    (∀ (text : List Char) (patterns : List (List (List Char))),
      List.Sorted (fun a b => lexLe a b = true) (find_keywords text patterns))
    ∧ (∀ (text : List Char) (patterns : List (List (List Char))),
      (find_keywords text patterns).Nodup)
    ∧ (∀ (text : List Char) (patterns : List (List (List Char))) (w : List Char),
      w ∈ find_keywords text patterns
        ↔ ∃ p ∈ patterns, w ∈ pyFinditer (text.map Char.toLower) p)
    ∧ find_keywords rctText STUDY_TYPE_PATTERNS
      = ["randomized controlled trial".toList] := by
  refine ⟨?_, ?_, ?_, ?_⟩
  · intro text patterns
    exact List.sorted_insertionSort _ _
  · intro text patterns
    rw [find_keywords]
    exact (List.perm_insertionSort _ _).nodup_iff.mpr
      (nodup_foldl_finditer _ patterns [] List.nodup_nil)
  · intro text patterns w
    rw [find_keywords]
    rw [List.mem_insertionSort]
    rw [mem_foldl_finditer]
    simp
  · decide

/-- The abstract field `AB` of a MEDLINE record: a string or a list of
fragment strings (`join_abstract` handles both shapes). -/
inductive ABField
  | str (s : List Char)
  | fragments (l : List (List Char))
deriving DecidableEq

/-- A MEDLINE record with the fields `analyze_records` reads; absent
fields are the empty string, matching `r.get(..., "") or ""`. -/
structure MedRecord where
  PMID : List Char
  TI : List Char
  JT : List Char
  TA : List Char
  DP : List Char
  AB : ABField
deriving DecidableEq

/-- `join_abstract` (lines 86-93): join list-shaped abstracts with single
spaces, return string-shaped ones as is. -/
def join_abstract : ABField → List Char
  | .str s => s
  | .fragments l => List.intercalate " ".toList l

/-- `build_context` (lines 96-107): join the stripped nonempty title and
abstract with `". "`. -/
def build_context (r : MedRecord) : List Char :=
  let title := r.TI
  let abstract := join_abstract r.AB
  let parts := (if pyStrip title = [] then [] else [pyStrip title])
    ++ (if pyStrip abstract = [] then [] else [pyStrip abstract])
  List.intercalate ". ".toList parts

/-- The year extraction of `analyze_records` (lines 257-261):
`re.match(r"(\d{4})", dp)` matches exactly when the date string starts with
four digits, and then captures those four characters. -/
def extractYear (dp : List Char) : List Char :=
  match dp with
  | a :: b :: c :: d :: _ =>
    if a.isDigit && b.isDigit && c.isDigit && d.isDigit then [a, b, c, d] else []
  | _ => []

/-- One output row of `analyze_records` (lines 268-279). -/
structure Row where
  pmid : List Char
  title : List Char
  journal : List Char
  year : List Char
  diseases : List (List Char)
  genes : List (List Char)
  drugs : List (List Char)
  study_types : List (List Char)
  trial_phases : List (List Char)
  abstract : List Char
deriving DecidableEq

/-- The body of the per-record loop of `analyze_records` (lines 252-279);
an error raised by the recognizer inside `ner_document` propagates. -/
def analyzeRecord {ε : Type} (pipe : List Char → Except ε (List Span))
    (maxChars : Nat) (r : MedRecord) : Except ε Row :=
  let context := build_context r
  (nerDocumentE pipe context maxChars).map fun ents =>
    { pmid := r.PMID
      title := r.TI
      journal := if r.JT = [] then r.TA else r.JT
      year := extractYear r.DP
      diseases := ents.disease
      genes := ents.gene
      drugs := ents.drug
      study_types := find_keywords context STUDY_TYPE_PATTERNS
      trial_phases := find_keywords context TRIAL_PHASE_PATTERNS
      abstract := join_abstract r.AB }

/-- `analyze_records` (lines 246-280): the records are processed in order
and the rows accumulated; the loop has no exception handler, so the first
error aborts the whole call. -/
def analyze_records {ε : Type} (pipe : List Char → Except ε (List Span))
    (maxChars : Nat) (records : List MedRecord) : Except ε (List Row) :=
  records.foldlM (fun rows r => (analyzeRecord pipe maxChars r).map
    (fun row => rows ++ [row])) []

/-- C9.  Year extraction returns the first four characters of the date
string exactly when they exist and are all digits, and the empty string
otherwise; `"2021 Jan-Feb"` yields `"2021"` and `"Jan 2020"` yields `""`
because its digits are not leading. -/
theorem extract_year_leading_digits :
    (∀ dp : List Char, (dp.take 4).length = 4 → (∀ c ∈ dp.take 4, c.isDigit = true) →
      extractYear dp = dp.take 4)
    ∧ (∀ dp : List Char, ((dp.take 4).length ≠ 4 ∨ ∃ c ∈ dp.take 4, c.isDigit = false) →
      extractYear dp = [])
    ∧ extractYear "2021 Jan-Feb".toList = "2021".toList
    ∧ extractYear "Jan 2020".toList = [] := by
  refine ⟨?_, ?_, by decide, by decide⟩
  · intro dp hlen hdig
    rcases dp with _ | ⟨a, _ | ⟨b, _ | ⟨c, _ | ⟨d, rest⟩⟩⟩⟩ <;> simp_all [extractYear]
  · intro dp h
    rcases dp with _ | ⟨a, _ | ⟨b, _ | ⟨c, _ | ⟨d, rest⟩⟩⟩⟩
    · rfl
    · rfl
    · rfl
    · rfl
    · rw [extractYear]
      have hfalse : (a.isDigit && b.isDigit && c.isDigit && d.isDigit) = false := by
        rcases h with hlen | ⟨e, he, hd⟩
        · exact absurd (by simp) hlen
        · have he2 : e = a ∨ e = b ∨ e = c ∨ e = d := by simpa using he
          rcases he2 with rfl | rfl | rfl | rfl <;> simp [hd]
      rw [hfalse]
      rfl

/-- C9, witness: the leading-digits branch of the theorem applied to the
date string `"2021 Jan-Feb"`. -/
theorem extract_year_leading_digits_witness :
    (("2021 Jan-Feb".toList.take 4).length = 4
      ∧ ∀ c ∈ "2021 Jan-Feb".toList.take 4, c.isDigit = true)
    ∧ extractYear "2021 Jan-Feb".toList = "2021 Jan-Feb".toList.take 4 :=
  ⟨⟨by decide, by decide⟩,
    extract_year_leading_digits.1 "2021 Jan-Feb".toList (by decide) (by decide)⟩

/-- A recognizer stub that always fails with the error `"boom"`. -/
def pipeBoom : List Char → Except (List Char) (List Span) :=
  fun _ => Except.error "boom".toList

/-- A record with identifier `"123"` and a nonempty title, so that the
recognizer is actually invoked on its context. -/
def rec123 : MedRecord :=
  { PMID := "123".toList, TI := "Glaucoma study".toList, JT := [], TA := [],
    DP := [], AB := .str [] }

/-- C7 counterexample.  When the aggregator fails on the record `"123"`,
`analyze_records` surfaces the recognizer's error verbatim: the surfaced
error is `"boom"`, which does not contain the record's identifier `"123"`
in any way — the code attaches no identifier to the error. -/
theorem analyze_records_error_identifier_cex :
    analyze_records pipeBoom 100 [rec123] = Except.error "boom".toList
    ∧ ¬("123".toList <:+: "boom".toList) := by
  refine ⟨by rfl, by decide⟩

/-- C7 amended.  When the aggregator fails on a record, `analyze_records`
does not retry and does not continue with the remaining records: the
aggregator's error propagates to the caller unchanged — whatever records
follow — and no identifier is attached to it. -/
theorem analyze_records_error_propagation {ε : Type}
    (pipe : List Char → Except ε (List Span)) (maxChars : Nat)
    (r : MedRecord) (rest : List MedRecord) (e : ε)
    (h : nerDocumentE pipe (build_context r) maxChars = Except.error e) :
    analyze_records pipe maxChars (r :: rest) = Except.error e := by
  rw [analyze_records, List.foldlM_cons, analyzeRecord, h]
  rfl

/-- C7 amended, witness: the always-failing recognizer on the record
`"123"` followed by one more record; the whole call fails with the
recognizer's own error. -/
theorem analyze_records_error_propagation_witness :
    (nerDocumentE pipeBoom (build_context rec123) 100 = Except.error "boom".toList)
    ∧ analyze_records pipeBoom 100 [rec123, rec123] = Except.error "boom".toList :=
  ⟨by rfl, analyze_records_error_propagation pipeBoom 100 rec123 [rec123]
    "boom".toList (by rfl)⟩

end ODDB
